import Mathlib

/-!
Verification development for the PJM day-ahead dashboard aggregation
pipeline (`generate_pjm_dashboard.py`), shallowly embedded in Lean.

Modelling conventions:
* Prices are rationals (`ℚ`); a missing cell (pandas `NaN`) is `none`.
* A pandas DataFrame with a `Date` index and one column per zone is a
  `RawSeries`: the ordered list of zone-column names plus one row per
  timestamp holding the (possibly missing) price of each zone in column
  order.
* pandas sorts (`sort_values`, the key ordering of `groupby`) are
  modelled as stable sorts (`List.insertionSort`); `groupby` orders its
  group keys ascending (the pandas `sort=True` default).
* `Series.std` is the sample standard deviation (`ddof=1`), `NaN` on
  fewer than two observations.  Its square, the sample variance, is
  rational, so the development carries `sampleVar` (std²); `std` itself
  is `Real.sqrt` of it and is defined, zero or missing exactly when
  `sampleVar` is.
* Pearson correlations are irrational in general; an entry of
  `wide.corr()` is represented exactly by the pair `CorrVal`
  (covariance numerator, product of the two variance numerators): the
  float the code computes is `cov / sqrt denom`, so the representation
  determines the value.
-/

namespace PJM

/-- A parsed timestamp (`pd.to_datetime` result), with the fields the
pipeline reads (`dt.year`, `dt.month`, `dt.day`, `dt.hour`). -/
structure Timestamp where
  year : Int
  month : Nat
  day : Nat
  hour : Nat
deriving DecidableEq, Repr

/-- Lexicographic (chronological) order on timestamps. -/
def Timestamp.le (a b : Timestamp) : Prop :=
  a.year < b.year ∨ (a.year = b.year ∧ (a.month < b.month ∨ (a.month = b.month ∧
    (a.day < b.day ∨ (a.day = b.day ∧ a.hour ≤ b.hour)))))

instance : DecidableRel Timestamp.le := fun a b => by
  unfold Timestamp.le; infer_instance

instance : IsTotal Timestamp Timestamp.le := by
  constructor; intro a b; unfold Timestamp.le; omega

instance : IsTrans Timestamp Timestamp.le := by
  constructor; intro a b c; unfold Timestamp.le; omega

/-- The loaded frame: zone-column names in original column order, and one
row per timestamp with one (possibly missing) cell per zone. -/
structure RawSeries where
  zones : List String
  rows : List (Timestamp × List (Option ℚ))
deriving Repr

/-- Every row has exactly one cell per zone column. -/
def RawSeries.Rectangular (rs : RawSeries) : Prop :=
  ∀ r ∈ rs.rows, r.2.length = rs.zones.length

/-- A clean input: rectangular, no missing cells, no duplicate
timestamps, no duplicate zone names. -/
def RawSeries.Valid (rs : RawSeries) : Prop :=
  rs.Rectangular ∧ (∀ r ∈ rs.rows, ∀ c ∈ r.2, c.isSome) ∧
    (rs.rows.map Prod.fst).Nodup ∧ rs.zones.Nodup

/-- One row of the long ("tall") form. -/
structure LongRecord where
  date : Timestamp
  zone : String
  price : ℚ
deriving DecidableEq, Repr

/-- Model of `df.set_index("Date")[zone_cols].stack().reset_index()` — one record
per (row, zone) cell whose value is present; `stack` drops missing
cells.  Row-major: records of the first timestamp first, zones in
column order within a row. -/
def toLongForm (rs : RawSeries) : List LongRecord :=
  rs.rows.flatMap fun r =>
    (rs.zones.zip r.2).filterMap fun zc => zc.2.map fun p => ⟨r.1, zc.1, p⟩

/-- Number of present (non-missing) cells of the frame. -/
def presentCount (rs : RawSeries) : Nat :=
  (rs.rows.map fun r => r.2.countP fun c => c.isSome).sum

/-- Number of missing cells of the frame. -/
def missingCount (rs : RawSeries) : Nat :=
  (rs.rows.map fun r => r.2.countP fun c => !c.isSome).sum

/-- The column of zone `z`, one (possibly missing) cell per row
(first matching column when names repeat, as a lookup). -/
def columnOf (rs : RawSeries) (z : String) : List (Option ℚ) :=
  rs.rows.map fun r => ((rs.zones.zip r.2).lookup z).join

/-- The price history of zone `z` in the long form
(`stacked[stacked.Zone == z].Price`, in record order). -/
def pricesOf (z : String) (l : List LongRecord) : List ℚ :=
  (l.filter fun r => r.zone = z).map fun r => r.price

/-- Mean of a list of rationals (`Series.mean`); junk value 0 on the
empty list, which the pipeline only ever hits behind an emptiness
guard. -/
def meanQ (l : List ℚ) : ℚ := l.sum / l.length

/-- The variance numerator `Σ (x − mean)²`. -/
def varNum (l : List ℚ) : ℚ := (l.map fun x => (x - meanQ l) ^ 2).sum

/-- Sample variance, the square of pandas `Series.std` (`ddof=1`):
no value on fewer than two observations, else `Σ(x−x̄)²/(n−1)`. -/
def sampleVar (l : List ℚ) : Option ℚ :=
  if l.length ≤ 1 then none else some (varNum l / ((l.length : ℚ) - 1))

/-- Model of `Series.quantile(q)` with the pandas default linear interpolation:
over the ascending-sorted values `s`, with `h = q·(n−1)`, the value is
`s_⌊h⌋ + (h − ⌊h⌋)·(s_min(⌊h⌋+1, n−1) − s_⌊h⌋)`; no value on an empty
series. -/
def quantileQ (l : List ℚ) (q : ℚ) : Option ℚ :=
  if l = [] then none
  else
    let s := List.insertionSort (· ≤ ·) l
    let n := l.length
    let h : ℚ := q * ((n : ℚ) - 1)
    let k : Nat := h.floor.toNat
    let lo := s.getD k 0
    let hi := s.getD (min (k + 1) (n - 1)) 0
    some (lo + (h - (k : ℚ)) * (hi - lo))

/-- Model of `Series.median` = `quantile(0.5)`. -/
def medianQ (l : List ℚ) : Option ℚ := quantileQ l (1 / 2)

/-- Comparator for a descending stable sort on a rational key:
`keyGe key a b` holds when `a`'s key is at least `b`'s. -/
def keyGe {α : Type} (key : α → ℚ) (a b : α) : Prop := key b ≤ key a

instance {α : Type} (key : α → ℚ) : DecidableRel (keyGe key) := fun a b => by
  unfold keyGe; infer_instance

/-- Comparator for an ascending stable sort on a rational key. -/
def keyLe {α : Type} (key : α → ℚ) (a b : α) : Prop := key a ≤ key b

instance {α : Type} (key : α → ℚ) : DecidableRel (keyLe key) := fun a b => by
  unfold keyLe; infer_instance

instance {α : Type} (key : α → ℚ) : IsTotal α (keyGe key) :=
  ⟨fun a b => le_total (key b) (key a)⟩

instance {α : Type} (key : α → ℚ) : IsTrans α (keyGe key) :=
  ⟨fun _ _ _ hab hbc => le_trans hbc hab⟩

instance {α : Type} (key : α → ℚ) : IsTotal α (keyLe key) :=
  ⟨fun a b => le_total (key a) (key b)⟩

instance {α : Type} (key : α → ℚ) : IsTrans α (keyLe key) :=
  ⟨fun _ _ _ hab hbc => le_trans hab hbc⟩

/-- Lexicographic order on zone names (how pandas orders string group
keys), as the order on the underlying character lists. -/
def zoneLe (a b : String) : Prop := a.data ≤ b.data

instance : DecidableRel zoneLe := fun a b => by
  unfold zoneLe; infer_instance

instance : IsTotal String zoneLe := by
  constructor; intro a b; exact le_total a.data b.data

instance : IsTrans String zoneLe := by
  constructor; intro a b c hab hbc; exact le_trans hab hbc

/-- Strict lexicographic order on zone names. -/
def zoneLt (a b : String) : Prop := a.data < b.data

/-- One row of the per-zone summary table. -/
structure ZoneRow where
  zone : String
  mean : ℚ
  median : Option ℚ
  p95 : Option ℚ
  mn : Option ℚ
  mx : Option ℚ
  stdevSq : Option ℚ
  rank : Nat
deriving DecidableEq, Repr

/-- The `groupby("Zone")` group keys: the distinct zones of the long
form, ordered ascending (the pandas `sort=True` default). -/
def sortedKeys (l : List LongRecord) : List String :=
  List.insertionSort zoneLe (l.map fun r => r.zone).dedup

/-- The aggregated row of one zone group (rank filled in later). -/
def mkZoneRow (z : String) (g : List ℚ) : ZoneRow :=
  ⟨z, meanQ g, medianQ g, quantileQ g (95 / 100), g.min?, g.max?, sampleVar g, 0⟩

/-- Model of `Series.rank(method="first", ascending=False)`: the element at
position `i` gets rank `1 + #{j | s_j > s_i} + #{j < i | s_j = s_i}`
(ties broken by order of appearance). -/
def rankFirstDesc (s : List ℚ) : List Nat :=
  s.enum.map fun ix =>
    1 + (s.countP fun y => ix.2 < y) + ((s.take ix.1).countP fun y => y = ix.2)

/-- Model of `stacked.groupby("Zone").agg(...)` (keys ascending),
`.sort_values("Mean", ascending=False)` (modelled stable), then
`Rank = Mean.rank(method="first", ascending=False)`. -/
def zoneSummary (l : List LongRecord) : List ZoneRow :=
  let rows := (sortedKeys l).map fun z => mkZoneRow z (pricesOf z l)
  let sorted := List.insertionSort (keyGe ZoneRow.mean) rows
  (sorted.zip (rankFirstDesc (sorted.map fun r => r.mean))).map fun rk =>
    { rk.1 with rank := rk.2 }

/-- Model of `stacked.sort_values("Price", ascending=False).head(k)` and
`...ascending=True).head(k)` (sorts modelled stable). -/
def extremes (l : List LongRecord) (k : Nat) : List LongRecord × List LongRecord :=
  ((List.insertionSort (keyGe LongRecord.price) l).take k,
   (List.insertionSort (keyLe LongRecord.price) l).take k)

/-- The month→season dictionary of `season_of_month`; a month outside
1..12 has no entry (the Python lookup would raise `KeyError`). -/
def season_of_month (m : Nat) : Option String :=
  match m with
  | 12 => some "Winter" | 1 => some "Winter" | 2 => some "Winter"
  | 3 => some "Spring" | 4 => some "Spring" | 5 => some "Spring"
  | 6 => some "Summer" | 7 => some "Summer" | 8 => some "Summer"
  | 9 => some "Autumn" | 10 => some "Autumn" | 11 => some "Autumn"
  | _ => none

/-- The fixed season order used by `.reindex([...])`. -/
def seasonNames : List String := ["Winter", "Spring", "Summer", "Autumn"]

/-- One row of the seasonal summary (`none` = pandas `NaN`). -/
structure SeasonRow where
  season : String
  mean : Option ℚ
  median : Option ℚ
  stdevSq : Option ℚ
  mn : Option ℚ
  mx : Option ℚ
deriving DecidableEq, Repr

/-- The prices of the records whose month maps to season `s`. -/
def seasonGroup (l : List LongRecord) (s : String) : List ℚ :=
  (l.filter fun r => season_of_month r.date.month = some s).map fun r => r.price

/-- Model of `stacked` with a `Season` column, `groupby("Season")` aggregated by
mean/median/std/min/max, `.reindex(["Winter","Spring","Summer","Autumn"])`:
a season with no records gets a row of missing statistics. -/
def seasonalAverage (l : List LongRecord) : List SeasonRow :=
  seasonNames.map fun s =>
    let g := seasonGroup l s
    ⟨s, if g = [] then none else some (meanQ g), medianQ g, sampleVar g,
      g.min?, g.max?⟩

/-- Model of `df.set_index("Date")[zone_cols].mean(axis=1)`: the per-row mean
over the present cells (missing when every cell of the row is). -/
def acrossZoneMean (rs : RawSeries) : List (Option ℚ) :=
  rs.rows.map fun r =>
    let p := r.2.filterMap id
    if p = [] then none else some (meanQ p)

/-- The trailing window of width `w` ending at position `i`. -/
def windowAt (xs : List (Option ℚ)) (w i : Nat) : List (Option ℚ) :=
  (xs.take (i + 1)).drop (i + 1 - w)

/-- Model of `Series.rolling(w, min_periods=minp)` followed by an aggregation `f`
of the present observations of each trailing window; no value where the
window holds fewer than `minp` observations. -/
def rollingApply (f : List ℚ → Option ℚ) (w minp : Nat) (xs : List (Option ℚ)) :
    List (Option ℚ) :=
  (List.range xs.length).map fun i =>
    let vals := (windowAt xs w i).filterMap id
    if minp ≤ vals.length then f vals else none

/-- Model of `roll["Avg"].rolling(24*30, min_periods=24).mean()`. -/
def rollMean30d (rs : RawSeries) : List (Option ℚ) :=
  rollingApply (fun vals => some (meanQ vals)) (24 * 30) 24 (acrossZoneMean rs)

/-- The square of `roll["Avg"].rolling(24*30, min_periods=24).std()`:
the rolling sample variance (the volatility is its square root, missing
exactly when it is). -/
def rollVar30d (rs : RawSeries) : List (Option ℚ) :=
  rollingApply sampleVar (24 * 30) 24 (acrossZoneMean rs)

/-- One row of the inter-zonal spread table (`none` = pandas `NaN`). -/
structure SpreadRow where
  date : Timestamp
  mx : Option ℚ
  mn : Option ℚ
  spread : Option ℚ
deriving DecidableEq, Repr

/-- Model of `wide.max(axis=1)` and `wide.min(axis=1)` (skipna: missing cells are
excluded), `Spread = Max − Min`. -/
def spreadRowOf (r : Timestamp × List (Option ℚ)) : SpreadRow :=
  let vals := r.2.filterMap id
  ⟨r.1, vals.max?, vals.min?,
    match vals.max?, vals.min? with
    | some a, some b => some (a - b)
    | _, _ => none⟩

/-- The spread series, one row per original timestamp. -/
def interZonalSpread (rs : RawSeries) : List SpreadRow :=
  rs.rows.map spreadRowOf

/-- Exact representation of one entry of `wide.corr()`: the float the
code computes is `cov / Real.sqrt denom`, so the pair determines it. -/
structure CorrVal where
  cov : ℚ
  denom : ℚ
deriving DecidableEq, Repr

/-- The rows where both of zone columns `i` and `j` are present, as
value pairs (pairwise-complete observations; rows where either is
missing are excluded from this pair only). -/
def pairData (rs : RawSeries) (i j : Nat) : List (ℚ × ℚ) :=
  rs.rows.filterMap fun r =>
    match r.2.getD i none, r.2.getD j none with
    | some a, some b => some (a, b)
    | _, _ => none

/-- Pearson correlation of paired observations.  Every normalisation
factor is shared, so r = Σ(a−ā)(b−b̄) / sqrt(Σ(a−ā)²·Σ(b−b̄)²); no
value when either variance numerator is zero (a constant column, fewer
than two pairs, or no pairs). -/
def corrEntry (ps : List (ℚ × ℚ)) : Option CorrVal :=
  if varNum (ps.map Prod.fst) * varNum (ps.map Prod.snd) = 0 then none
  else
    some ⟨(ps.map fun p =>
        (p.1 - meanQ (ps.map Prod.fst)) * (p.2 - meanQ (ps.map Prod.snd))).sum,
      varNum (ps.map Prod.fst) * varNum (ps.map Prod.snd)⟩

/-- Model of the `wide.corr()` entry for zone columns `i`, `j`. -/
def corrMatrix (rs : RawSeries) (i j : Nat) : Option CorrVal :=
  corrEntry (pairData rs i j)

/-- The present values of zone column `i`. -/
def columnVals (rs : RawSeries) (i : Nat) : List ℚ :=
  rs.rows.filterMap fun r => r.2.getD i none

/-- Fields of the `stacked["Price"]` KPI block (`none` = pandas `NaN` on empty data). -/
structure OverallStats where
  mean : Option ℚ
  median : Option ℚ
  mn : Option ℚ
  mx : Option ℚ
  p95 : Option ℚ
  stdevSq : Option ℚ
deriving DecidableEq, Repr

/-- The `overall` KPI dictionary (numeric fields). -/
def overallStats (l : List LongRecord) : OverallStats :=
  let g := l.map fun r => r.price
  ⟨if g = [] then none else some (meanQ g), medianQ g, g.min?, g.max?,
    quantileQ g (95 / 100), sampleVar g⟩

/-- The raw sheet as read by `pd.read_excel`: either it has a `Date`
column (whose parsed timestamps are `dateColumn`) or it does not. -/
structure InputTable where
  dateColumn : Option (List Timestamp)
  zoneNames : List String
  zoneRows : List (List (Option ℚ))
deriving Repr

/-- Row order for `sort_values("Date")`: compare timestamps. -/
def rowLe (a b : Timestamp × List (Option ℚ)) : Prop := Timestamp.le a.1 b.1

instance : DecidableRel rowLe := fun a b => by
  unfold rowLe; infer_instance

instance : IsTotal (Timestamp × List (Option ℚ)) rowLe := by
  constructor; intro a b; exact IsTotal.total (r := Timestamp.le) a.1 b.1

instance : IsTrans (Timestamp × List (Option ℚ)) rowLe := by
  constructor; intro a b c hab hbc
  exact IsTrans.trans (r := Timestamp.le) a.1 b.1 c.1 hab hbc

/-- Model of `load_data`: raises when the `Date` column is absent, otherwise
parses timestamps and sorts the rows ascending by timestamp. -/
def load_data (t : InputTable) : Except String RawSeries :=
  match t.dateColumn with
  | none => .error "Input sheet must contain a 'Date' column."
  | some dates =>
      .ok ⟨t.zoneNames, List.insertionSort rowLe (dates.zip t.zoneRows)⟩

/-- The derived views of `build_dashboard` the claims are about. -/
structure DashboardData where
  zoneTable : List ZoneRow
  seasonal : List SeasonRow
  spread : List SpreadRow
  rollMean : List (Option ℚ)
  rollVol : List (Option ℚ)
  topSpikes : List LongRecord
  topDips : List LongRecord
  overall : OverallStats
deriving Repr

/-- The aggregation stages of `build_dashboard` over the loaded frame. -/
def buildDashboardData (rs : RawSeries) : DashboardData :=
  let stacked := toLongForm rs
  let ext := extremes stacked 20
  ⟨zoneSummary stacked, seasonalAverage stacked, interZonalSpread rs,
    rollMean30d rs, rollVar30d rs, ext.1, ext.2, overallStats stacked⟩

/-- Model of `main`: load, then aggregate.  A loader failure aborts the run
before any aggregation executes. -/
def runPipeline (t : InputTable) : Except String DashboardData :=
  (load_data t).map buildDashboardData

/-- Index-tagged descending price order, the spec's wording for the top
table: price descending, ties by original record position. -/
def lexTop (a b : ℕ × LongRecord) : Prop :=
  b.2.price < a.2.price ∨ (a.2.price = b.2.price ∧ a.1 < b.1)

instance : DecidableRel lexTop := fun a b => by
  unfold lexTop; infer_instance

/-- Index-tagged ascending price order, the spec's wording for the
bottom table: price ascending, ties by original record position. -/
def lexBot (a b : ℕ × LongRecord) : Prop :=
  a.2.price < b.2.price ∨ (a.2.price = b.2.price ∧ a.1 < b.1)

instance : DecidableRel lexBot := fun a b => by
  unfold lexBot; infer_instance

/-- The spec's characterisation of `extremes`: tag records with their
original position, sort by (price desc, position asc) resp. (price asc,
position asc), take the first `k`, untag. -/
def extremesSpec (l : List LongRecord) (k : Nat) :
    List LongRecord × List LongRecord :=
  (((List.insertionSort lexTop l.enum).take k).map Prod.snd,
   ((List.insertionSort lexBot l.enum).take k).map Prod.snd)

/-- Non-strict comparator `r` strengthened by a tie-break `sec`. -/
def strictify {α : Type} (r sec : α → α → Prop) (a b : α) : Prop :=
  r a b ∧ (r b a → sec a b)

/-- A comparator on `α` obtained from one on `β` through `f`. -/
def liftRel {α β : Type} (f : α → β) (r : β → β → Prop) (a b : α) : Prop :=
  r (f a) (f b)

instance {α β : Type} (f : α → β) (r : β → β → Prop) [DecidableRel r] :
    DecidableRel (liftRel f r) := fun a b => by
  unfold liftRel; infer_instance

/-- Two zone columns, "B" before "A" in column order, a single row where
both prices tie: exhibits `zoneSummary`'s tie-break. -/
def rsTie : RawSeries :=
  ⟨["B", "A"], [(⟨2021, 1, 1, 0⟩, [some 5, some 5])]⟩

/-- One zone, 24 hourly rows, the first value missing: the across-zone
mean of row 0 is missing, so the rolling window ending at position 23
holds only 23 observations. -/
def rsGap : RawSeries :=
  ⟨["A"], (List.range 24).map fun i =>
    (⟨2021, 1, 1, i⟩, [if i = 0 then none else some 1])⟩

/-- One zone, 24 hourly rows, all values present. -/
def rsFull : RawSeries :=
  ⟨["A"], (List.range 24).map fun i => (⟨2021, 1, 1, i⟩, [some 1])⟩

/-- Two zones, two rows, one missing cell: the generic small frame used
to instantiate the proved theorems. -/
def rsSmall : RawSeries :=
  ⟨["A", "B"], [(⟨2021, 1, 1, 0⟩, [some 4, none]),
                (⟨2021, 1, 1, 1⟩, [some 2, some 3])]⟩

/-- A fully clean two-zone, two-row frame. -/
def rsClean : RawSeries :=
  ⟨["A", "B"], [(⟨2021, 1, 1, 0⟩, [some 4, some 1]),
                (⟨2021, 1, 1, 1⟩, [some 2, some 3])]⟩

/-- An input sheet without a `Date` column. -/
def tNoDate : InputTable := ⟨none, ["A"], [[some 1]]⟩

/-- An input sheet with a `Date` column, rows out of order. -/
def tWithDate : InputTable :=
  ⟨some [⟨2021, 1, 1, 5⟩, ⟨2021, 1, 1, 3⟩], ["A"], [[some 1], [some 2]]⟩

/-! ### Generic lemmas about stable sorting -/

theorem orderedInsert_congr {α : Type} (r₁ r₂ : α → α → Prop) [DecidableRel r₁]
    [DecidableRel r₂] (a : α) (s : List α) (h : ∀ b ∈ s, r₁ a b ↔ r₂ a b) :
    List.orderedInsert r₁ a s = List.orderedInsert r₂ a s := by
  induction s with
  | nil => rfl
  | cons b t ih =>
      simp only [List.orderedInsert]
      by_cases hb : r₁ a b
      · rw [if_pos hb, if_pos ((h b (List.mem_cons_self b t)).mp hb)]
      · rw [if_neg hb, if_neg fun hc => hb ((h b (List.mem_cons_self b t)).mpr hc),
          ih fun c hc => h c (List.mem_cons_of_mem b hc)]

/-- Two comparators that agree on every ordered pair of the input sort
it identically (the stability workhorse: a non-strict key comparator
and its strict tie-broken refinement agree on such pairs). -/
theorem insertionSort_congr {α : Type} (r₁ r₂ : α → α → Prop) [DecidableRel r₁]
    [DecidableRel r₂] (l : List α)
    (h : l.Pairwise fun a b => r₁ a b ↔ r₂ a b) :
    List.insertionSort r₁ l = List.insertionSort r₂ l := by
  induction l with
  | nil => rfl
  | cons a t ih =>
      simp only [List.insertionSort]
      rw [ih (List.Pairwise.of_cons h)]
      refine orderedInsert_congr r₁ r₂ a _ fun b hb => ?_
      exact (List.pairwise_cons.mp h).1 b ((List.perm_insertionSort r₂ t).mem_iff.mp hb)

theorem pairwise_orderedInsert_strictify {α : Type} (r sec : α → α → Prop)
    [DecidableRel r] (htot : ∀ a b, r a b ∨ r b a)
    (htrans : ∀ a b c, r a b → r b c → r a c) (a : α) (s : List α)
    (hs : List.Sorted r s) (hp : s.Pairwise (strictify r sec))
    (ha : ∀ b ∈ s, sec a b) :
    (List.orderedInsert r a s).Pairwise (strictify r sec) := by
  induction s with
  | nil => simp [List.orderedInsert]
  | cons b t ih =>
      simp only [List.orderedInsert]
      by_cases hab : r a b
      · rw [if_pos hab]
        refine List.pairwise_cons.mpr ⟨?_, hp⟩
        intro x hx
        rcases List.mem_cons.mp hx with rfl | hxt
        · exact ⟨hab, fun _ => ha x (List.mem_cons_self x t)⟩
        · exact ⟨htrans a b x hab (List.rel_of_sorted_cons hs x hxt),
            fun _ => ha x (List.mem_cons_of_mem b hxt)⟩
      · rw [if_neg hab]
        refine List.pairwise_cons.mpr ⟨?_, ?_⟩
        · intro x hx
          rcases (List.mem_orderedInsert r).mp hx with rfl | hxt
          · exact ⟨(htot x b).resolve_left hab, fun hba => absurd hba hab⟩
          · exact (List.pairwise_cons.mp hp).1 x hxt
        · exact ih hs.of_cons (List.Pairwise.of_cons hp)
            fun x hx => ha x (List.mem_cons_of_mem b hx)

/-- Stability of the sort, as an order on the output: when the input is
pairwise `sec`-related (e.g. tagged with strictly increasing original
positions), sorting by a total comparator `r` yields a list pairwise
ordered by `r` refined with the `sec` tie-break. -/
theorem pairwise_insertionSort_strictify {α : Type} (r sec : α → α → Prop)
    [DecidableRel r] (htot : ∀ a b, r a b ∨ r b a)
    (htrans : ∀ a b c, r a b → r b c → r a c) (l : List α)
    (hl : l.Pairwise sec) :
    (List.insertionSort r l).Pairwise (strictify r sec) := by
  haveI : IsTotal α r := ⟨htot⟩
  haveI : IsTrans α r := ⟨fun a b c => htrans a b c⟩
  induction l with
  | nil => simp [List.insertionSort]
  | cons a t ih =>
      simp only [List.insertionSort]
      refine pairwise_orderedInsert_strictify r sec htot htrans a _
        (List.sorted_insertionSort r t) (ih (List.Pairwise.of_cons hl)) ?_
      intro b hb
      exact (List.pairwise_cons.mp hl).1 b ((List.perm_insertionSort r t).mem_iff.mp hb)

theorem map_orderedInsert_lift {α β : Type} (f : α → β) (r : β → β → Prop)
    [DecidableRel r] (a : α) (s : List α) :
    (List.orderedInsert (liftRel f r) a s).map f =
      List.orderedInsert r (f a) (s.map f) := by
  induction s with
  | nil => rfl
  | cons b t ih =>
      simp only [List.orderedInsert, List.map_cons]
      by_cases h : liftRel f r a b
      · rw [if_pos h, if_pos (show r (f a) (f b) from h)]
        simp
      · rw [if_neg h, if_neg (show ¬r (f a) (f b) from h)]
        simp [ih]

/-- Sorting commutes with projecting out the sort key context. -/
theorem map_insertionSort_lift {α β : Type} (f : α → β) (r : β → β → Prop)
    [DecidableRel r] (l : List α) :
    (List.insertionSort (liftRel f r) l).map f =
      List.insertionSort r (l.map f) := by
  induction l with
  | nil => rfl
  | cons a t ih =>
      simp only [List.insertionSort, List.map_cons, map_orderedInsert_lift, ih]

theorem pairwise_fst_lt_enumFrom {α : Type} (n : ℕ) (l : List α) :
    (List.enumFrom n l).Pairwise fun a b => a.1 < b.1 := by
  induction l generalizing n with
  | nil => simp
  | cons a t ih =>
      refine List.pairwise_cons.mpr ⟨?_, ih (n + 1)⟩
      intro x hx
      exact lt_of_lt_of_le (Nat.lt_succ_self n) (List.le_fst_of_mem_enumFrom hx)

theorem pairwise_fst_lt_enum {α : Type} (l : List α) :
    l.enum.Pairwise fun a b => a.1 < b.1 :=
  pairwise_fst_lt_enumFrom 0 l

/-- In a list bounded below by `x`, the elements above `x` and the
elements equal to `x` partition the list. -/
theorem countP_lt_add_count_eq (x : ℚ) (t : List ℚ) (h : ∀ a ∈ t, x ≤ a) :
    (t.countP fun y => x < y) + (t.countP fun y => y = x) = t.length := by
  induction t with
  | nil => simp
  | cons a t ih =>
      have hx := h a (List.mem_cons_self a t)
      have iht := ih fun b hb => h b (List.mem_cons_of_mem a hb)
      rcases lt_or_eq_of_le hx with hlt | heq
      · have hne : a ≠ x := (ne_of_lt hlt).symm
        simp only [List.countP_cons, List.length_cons, decide_eq_true_eq]
        rw [if_pos hlt, if_neg hne]
        omega
      · have hnlt : ¬x < a := by rw [← heq]; exact lt_irrefl x
        simp only [List.countP_cons, List.length_cons, decide_eq_true_eq]
        rw [if_neg hnlt, if_pos heq.symm]
        omega

/-- On a non-increasing column, first-method descending ranks are
exactly the positions 1..n in order. -/
theorem rankFirstDesc_sorted (s : List ℚ) (hs : s.Pairwise fun a b => b ≤ a) :
    rankFirstDesc s = List.range' 1 s.length := by
  have hrel : ∀ (i j : Fin s.length), (i : ℕ) ≤ (j : ℕ) → s.get j ≤ s.get i := by
    intro i j hij
    rcases Nat.eq_or_lt_of_le hij with heq | hlt
    · have : i = j := Fin.ext heq
      subst this; exact le_refl _
    · exact List.pairwise_iff_get.mp hs i j hlt
  apply List.ext_get?
  intro n
  by_cases hn : n < s.length
  · set x := s.get ⟨n, hn⟩ with hx
    have hget : s[n]? = some x := by
      rw [List.getElem?_eq_getElem hn]; rfl
    have h1 : (rankFirstDesc s).get? n =
        some (1 + (s.countP fun y => x < y) + ((s.take n).countP fun y => y = x)) := by
      simp [rankFirstDesc, List.get?_map, List.get?_enum, hget]
    have h2 : (List.range' 1 s.length).get? n = some (1 + n) := by
      rw [List.get?_range' 1 1 hn, one_mul]
    rw [h1, h2, Option.some_inj]
    have hzero : (s.drop n).countP (fun y => x < y) = 0 := by
      rw [List.countP_eq_zero]
      intro a ha
      obtain ⟨⟨k, hk⟩, hak⟩ := List.mem_iff_get.mp ha
      have hk2 : n + k < s.length := by
        have hld := hk; rw [List.length_drop] at hld; omega
      have hagets : a = s.get ⟨n + k, hk2⟩ := by
        rw [← hak, List.get_drop s hk2]
      have hle : a ≤ x := by
        rw [hagets, hx]
        exact hrel ⟨n, hn⟩ ⟨n + k, hk2⟩ (Nat.le_add_right n k)
      simpa using not_lt.mpr hle
    have hsplit : s.countP (fun y => x < y) = (s.take n).countP (fun y => x < y) := by
      conv_lhs => rw [← List.take_append_drop n s]
      rw [List.countP_append, hzero]
      omega
    have hlen : (s.take n).length = n := by
      rw [List.length_take]; omega
    have hmemtake : ∀ a ∈ s.take n, x ≤ a := by
      intro a ha
      obtain ⟨⟨k, hk⟩, hak⟩ := List.mem_iff_get.mp ha
      have hk1 : k < n := by rw [hlen] at hk; exact hk
      have hk2 : k < s.length := lt_trans hk1 hn
      have hagets : a = s.get ⟨k, hk2⟩ := by
        rw [← hak, List.get_take s hk2 hk1]
      rw [hagets, hx]
      exact hrel ⟨k, hk2⟩ ⟨n, hn⟩ (le_of_lt hk1)
    have hsum : ((s.take n).countP fun y => x < y) + ((s.take n).countP fun y => y = x) = n := by
      rw [countP_lt_add_count_eq x (s.take n) hmemtake, hlen]
    rw [hsplit]
    omega
  · have hlen1 : (rankFirstDesc s).length = s.length := by
      simp [rankFirstDesc]
    have hlen2 : (List.range' 1 s.length).length = s.length := by
      simp
    rw [List.get?_eq_none.mpr (by omega), List.get?_eq_none.mpr (by omega)]

/-! ### Claim C1: zone summary ranking -/

theorem sortedKeys_sorted (l : List LongRecord) :
    List.Sorted zoneLe (sortedKeys l) :=
  List.sorted_insertionSort zoneLe _

theorem sortedKeys_nodup (l : List LongRecord) : (sortedKeys l).Nodup :=
  (List.perm_insertionSort zoneLe _).nodup_iff.mpr (List.nodup_dedup _)

theorem sortedKeys_pairwise_lt (l : List LongRecord) :
    (sortedKeys l).Pairwise zoneLt :=
  ((sortedKeys_sorted l).and (sortedKeys_nodup l)).imp fun hab =>
    lt_of_le_of_ne hab.1 fun hd => hab.2 (String.ext hd)

/-- C1, amended: for every long form, `zoneSummary` assigns ranks that
are exactly 1..Z in row order (Z = number of distinct zones), rank 1
goes to a zone of maximal mean, and rows are ordered by mean descending
with ties between equal means resolved by ascending zone name (the
grouping stage orders its keys), not by original column order. -/
theorem c1_zoneSummary_rank_permutation (l : List LongRecord) :
    ((zoneSummary l).map fun r => r.rank) = List.range' 1 (sortedKeys l).length ∧
    (zoneSummary l).Pairwise
      (fun a b => b.mean < a.mean ∨ (a.mean = b.mean ∧ zoneLt a.zone b.zone)) ∧
    ∀ h ∈ (zoneSummary l).head?, h.rank = 1 ∧ ∀ r ∈ zoneSummary l, r.mean ≤ h.mean := by
  set rows := (sortedKeys l).map (fun z => mkZoneRow z (pricesOf z l)) with hrows
  set sorted := List.insertionSort (keyGe ZoneRow.mean) rows with hsorteddef
  set ks := rankFirstDesc (sorted.map fun r => r.mean) with hks
  have hzs : zoneSummary l = (sorted.zip ks).map fun rk => { rk.1 with rank := rk.2 } := rfl
  have hsortedlen : sorted.length = rows.length := (List.perm_insertionSort _ _).length_eq
  have hkslen : ks.length = sorted.length := by
    simp [hks, rankFirstDesc]
  have hSorted : List.Sorted (keyGe ZoneRow.mean) sorted :=
    List.sorted_insertionSort _ _
  have hmeans : (sorted.map fun r => r.mean).Pairwise fun a b => b ≤ a := by
    rw [List.pairwise_map]
    exact hSorted
  have hranks : ks = List.range' 1 sorted.length := by
    rw [hks, rankFirstDesc_sorted _ hmeans, List.length_map]
  have hcomp : ((fun r : ZoneRow => r.rank) ∘
      fun rk : ZoneRow × ℕ => { rk.1 with rank := rk.2 }) = Prod.snd := rfl
  have hmaprank : ((zoneSummary l).map fun r => r.rank) = ks := by
    rw [hzs, List.map_map, hcomp]
    exact List.map_snd_zip sorted ks (le_of_eq hkslen)
  have hrowszone : rows.Pairwise fun a b => zoneLt a.zone b.zone := by
    rw [hrows, List.pairwise_map]
    exact sortedKeys_pairwise_lt l
  have hstrict : sorted.Pairwise
      (strictify (keyGe ZoneRow.mean) fun a b => zoneLt a.zone b.zone) := by
    rw [hsorteddef]
    exact pairwise_insertionSort_strictify (keyGe ZoneRow.mean)
      (fun a b => zoneLt a.zone b.zone) (fun a b => le_total b.mean a.mean)
      (fun a b c hab hbc => le_trans hbc hab) rows hrowszone
  have hfst : (sorted.zip ks).map Prod.fst = sorted :=
    List.map_fst_zip sorted ks (le_of_eq hkslen.symm)
  have hzip : (sorted.zip ks).Pairwise fun p q =>
      strictify (keyGe ZoneRow.mean) (fun a b => zoneLt a.zone b.zone) p.1 q.1 :=
    List.pairwise_map.mp (hfst.symm ▸ hstrict)
  refine ⟨?_, ?_, ?_⟩
  · rw [hmaprank, hranks, hsortedlen, hrows, List.length_map]
  · rw [hzs, List.pairwise_map]
    refine hzip.imp ?_
    intro p q hpq
    have hle : q.1.mean ≤ p.1.mean := hpq.1
    rcases lt_or_eq_of_le hle with hlt | heq
    · exact Or.inl hlt
    · exact Or.inr ⟨heq.symm, hpq.2 (le_of_eq heq.symm)⟩
  · intro h hmem
    obtain ⟨t, hcons⟩ : ∃ t, zoneSummary l = h :: t := by
      cases hzz : zoneSummary l with
      | nil => rw [hzz] at hmem; simp at hmem
      | cons a t =>
          rw [hzz] at hmem
          simp at hmem
          subst hmem
          exact ⟨t, rfl⟩
    constructor
    · have hm := hmaprank
      rw [hcons, hranks] at hm
      simp only [List.map_cons] at hm
      have hlzs : (zoneSummary l).length = sorted.length := by
        rw [hzs, List.length_map, List.length_zip, hkslen]
        simp
      rw [hcons] at hlzs
      simp at hlzs
      have hlen : sorted.length = t.length + 1 := by omega
      rw [hlen, List.range'_succ] at hm
      injection hm
    · have hmge : (zoneSummary l).Pairwise fun a b => b.mean ≤ a.mean := by
        rw [hzs, List.pairwise_map]
        exact hzip.imp fun hpq => hpq.1
      intro r hr
      rw [hcons] at hmge hr
      rcases List.mem_cons.mp hr with rfl | hrt
      · exact le_refl _
      · exact (List.pairwise_cons.mp hmge).1 r hrt

/-- C1, witness at a concrete input: on `rsTie` the theorem yields ranks
[1, 2] and a head row of rank 1. -/
theorem c1_zoneSummary_rank_permutation_witness :
    ((zoneSummary (toLongForm rsTie)).map fun r => r.rank) = [1, 2] ∧
    ((zoneSummary (toLongForm rsTie)).head?.map fun r => r.rank) = some 1 := by
  have h := c1_zoneSummary_rank_permutation (toLongForm rsTie)
  constructor
  · rw [h.1]
    rfl
  · cases hz : (zoneSummary (toLongForm rsTie)).head? with
    | none =>
        exfalso
        have hlen : (zoneSummary (toLongForm rsTie)).length = 2 := by
          have hmap := congrArg List.length h.1
          rw [List.length_map] at hmap
          simpa using hmap
        cases hzz : zoneSummary (toLongForm rsTie) with
        | nil => rw [hzz] at hlen; simp at hlen
        | cons a t => rw [hzz] at hz; simp at hz
    | some hd =>
        have hd1 : hd.rank = 1 :=
          (h.2.2 hd (by simp [hz])).1
        simp [hd1]

/-- C1, counterexample to the claim as stated: the zones appear in
column order ["B", "A"] and their means tie, yet rank 1 goes to "A"
(the lexicographically first zone), not to "B" (the zone first in the
original column order), because `groupby` orders its keys. -/
theorem c1_counterexample :
    rsTie.zones = ["B", "A"] ∧
    ((zoneSummary (toLongForm rsTie)).map fun r => (r.zone, r.rank)) = [("A", 1), ("B", 2)] ∧
    ((zoneSummary (toLongForm rsTie)).map fun r => r.mean) = [5, 5] := by
  have h2 : sortedKeys (toLongForm rsTie) = ["A", "B"] := by rfl
  have h3 : pricesOf "A" (toLongForm rsTie) = [5] := by rfl
  have h4 : pricesOf "B" (toLongForm rsTie) = [5] := by rfl
  refine ⟨rfl, ?_, ?_⟩
  · simp [zoneSummary, h2, h3, h4, mkZoneRow, rankFirstDesc, keyGe, List.insertionSort,
      List.orderedInsert, Function.comp, List.enum, List.enumFrom, List.countP, List.countP.go,
      List.take, List.zip, List.zipWith]
  · simp [zoneSummary, h2, h3, h4, mkZoneRow, rankFirstDesc, keyGe, List.insertionSort,
      List.orderedInsert, Function.comp, List.enum, List.enumFrom, List.countP, List.countP.go,
      List.take, List.zip, List.zipWith]
    norm_num [meanQ]

/-! ### Claim C3: extremes tables -/

/-- C3: `extremes` equals the spec's characterisation — tag every record
with its original position, sort by price descending (resp. ascending)
with ties broken by the original position, and keep the first `k` — and
those index-tagged sorts really are ordered by the stated strict
orders. -/
theorem c3_extremes_stable (l : List LongRecord) (k : Nat) :
    extremes l k = extremesSpec l k ∧
    (List.insertionSort lexTop l.enum).Pairwise lexTop ∧
    (List.insertionSort lexBot l.enum).Pairwise lexBot := by
  have henum : l.enum.Pairwise fun a b => a.1 < b.1 := pairwise_fst_lt_enum l
  have hiffTop : l.enum.Pairwise fun a b =>
      liftRel Prod.snd (keyGe LongRecord.price) a b ↔ lexTop a b := by
    refine henum.imp ?_
    intro a b hab
    constructor
    · intro hle
      rcases lt_or_eq_of_le (hle : b.2.price ≤ a.2.price) with hlt | heq
      · exact Or.inl hlt
      · exact Or.inr ⟨heq.symm, hab⟩
    · intro hlex
      rcases hlex with hlt | ⟨heq, _⟩
      · exact le_of_lt hlt
      · exact le_of_eq heq.symm
  have hiffBot : l.enum.Pairwise fun a b =>
      liftRel Prod.snd (keyLe LongRecord.price) a b ↔ lexBot a b := by
    refine henum.imp ?_
    intro a b hab
    constructor
    · intro hle
      rcases lt_or_eq_of_le (hle : a.2.price ≤ b.2.price) with hlt | heq
      · exact Or.inl hlt
      · exact Or.inr ⟨heq, hab⟩
    · intro hlex
      rcases hlex with hlt | ⟨heq, _⟩
      · exact le_of_lt hlt
      · exact le_of_eq heq
  have htopcongr : List.insertionSort (liftRel Prod.snd (keyGe LongRecord.price)) l.enum
      = List.insertionSort lexTop l.enum :=
    insertionSort_congr _ _ l.enum hiffTop
  have hbotcongr : List.insertionSort (liftRel Prod.snd (keyLe LongRecord.price)) l.enum
      = List.insertionSort lexBot l.enum :=
    insertionSort_congr _ _ l.enum hiffBot
  have hmapt : (List.insertionSort (liftRel Prod.snd (keyGe LongRecord.price)) l.enum).map
      Prod.snd = List.insertionSort (keyGe LongRecord.price) l := by
    rw [map_insertionSort_lift, List.enum_map_snd]
  have hmapb : (List.insertionSort (liftRel Prod.snd (keyLe LongRecord.price)) l.enum).map
      Prod.snd = List.insertionSort (keyLe LongRecord.price) l := by
    rw [map_insertionSort_lift, List.enum_map_snd]
  refine ⟨?_, ?_, ?_⟩
  · have e1 : ((List.insertionSort lexTop l.enum).take k).map Prod.snd
        = (List.insertionSort (keyGe LongRecord.price) l).take k := by
      rw [← htopcongr, List.map_take, hmapt]
    have e2 : ((List.insertionSort lexBot l.enum).take k).map Prod.snd
        = (List.insertionSort (keyLe LongRecord.price) l).take k := by
      rw [← hbotcongr, List.map_take, hmapb]
    unfold extremes extremesSpec
    rw [e1, e2]
  · rw [← htopcongr]
    refine (pairwise_insertionSort_strictify (liftRel Prod.snd (keyGe LongRecord.price))
      (fun a b => a.1 < b.1) (fun a b => le_total b.2.price a.2.price)
      (fun a b c hab hbc => le_trans hbc hab) l.enum henum).imp ?_
    intro a b hab
    rcases lt_or_eq_of_le (hab.1 : b.2.price ≤ a.2.price) with hlt | heq
    · exact Or.inl hlt
    · exact Or.inr ⟨heq.symm, hab.2 (le_of_eq heq.symm)⟩
  · rw [← hbotcongr]
    refine (pairwise_insertionSort_strictify (liftRel Prod.snd (keyLe LongRecord.price))
      (fun a b => a.1 < b.1) (fun a b => le_total a.2.price b.2.price)
      (fun a b c hab hbc => le_trans hab hbc) l.enum henum).imp ?_
    intro a b hab
    rcases lt_or_eq_of_le (hab.1 : a.2.price ≤ b.2.price) with hlt | heq
    · exact Or.inl hlt
    · exact Or.inr ⟨heq, hab.2 (le_of_eq heq.symm)⟩

/-! ### Claims C2 and C10: the long form -/

theorem row_stack_pairs (t : Timestamp) (zs : List String) :
    ∀ (cs : List (Option ℚ)), cs.length = zs.length → (∀ c ∈ cs, c.isSome) →
    ((zs.zip cs).filterMap fun zc => zc.2.map fun p => (⟨t, zc.1, p⟩ : LongRecord)).map
      (fun r => (r.date, r.zone)) = zs.map fun z => (t, z) := by
  induction zs with
  | nil =>
      intro cs hlen _
      cases cs with
      | nil => rfl
      | cons c cs => simp at hlen
  | cons z zs ih =>
      intro cs hlen hall
      cases cs with
      | nil => simp at hlen
      | cons c cs =>
          obtain ⟨p, hp⟩ := Option.isSome_iff_exists.mp (hall c (List.mem_cons_self c cs))
          subst hp
          simp only [List.zip_cons_cons, List.filterMap_cons, Option.map_some', List.map_cons]
          rw [ih cs (by simpa using hlen) fun x hx => hall x (List.mem_cons_of_mem _ hx)]

theorem countP_eq_one_of_nodup_mem {α : Type} [DecidableEq α] (zs : List α) (z : α)
    (hnd : zs.Nodup) (hz : z ∈ zs) : (zs.countP fun w => w = z) = 1 := by
  induction zs with
  | nil => simp at hz
  | cons w zs ih =>
      rcases List.mem_cons.mp hz with rfl | hm
      · have hw : ∀ x ∈ zs, z ≠ x := (List.pairwise_cons.mp hnd).1
        have h0 : (zs.countP fun w => w = z) = 0 := by
          rw [List.countP_eq_zero]
          intro a ha
          simp only [decide_eq_true_eq]
          exact fun he => (hw a ha) he.symm
        simp [List.countP_cons, h0]
      · have hwz : w ≠ z := fun he => ((List.pairwise_cons.mp hnd).1 z hm) he
        simp [List.countP_cons, hwz, ih (List.Pairwise.of_cons hnd) hm]

theorem countP_pair_map (t t' : Timestamp) (z : String) (zs : List String) :
    ((zs.map fun w => (t', w)).countP fun p => p = (t, z))
      = if t' = t then zs.countP (fun w => w = z) else 0 := by
  by_cases h : t' = t
  · subst h
    rw [if_pos rfl]
    induction zs with
    | nil => simp
    | cons w zs ih =>
        simp only [List.map_cons, List.countP_cons, ih]
        by_cases hw : w = z
        · simp [hw, Prod.ext_iff]
        · simp [hw, Prod.ext_iff]
  · rw [if_neg h, List.countP_eq_zero]
    intro p hp
    obtain ⟨w, _, heq⟩ := List.mem_map.mp hp
    subst heq
    simp only [decide_eq_true_eq]
    exact fun he => h (Prod.ext_iff.mp he).1

theorem countP_stack_pairs_zero (t : Timestamp) (z : String) (zs : List String)
    (L : List (Timestamp × List (Option ℚ))) (h : t ∉ L.map Prod.fst) :
    ((L.flatMap fun r => zs.map fun w => (r.1, w)).countP fun p => p = (t, z)) = 0 := by
  induction L with
  | nil => rfl
  | cons r L ih =>
      simp only [List.flatMap_cons, List.countP_append]
      have hne : r.1 ≠ t := fun he => h (by simp [he])
      rw [countP_pair_map, if_neg hne, ih fun hm => h (by simp [hm])]

theorem countP_stack_pairs_one (t : Timestamp) (z : String) (zs : List String)
    (hz : z ∈ zs) (hznd : zs.Nodup) :
    ∀ (L : List (Timestamp × List (Option ℚ))), (L.map Prod.fst).Nodup →
    t ∈ L.map Prod.fst →
    ((L.flatMap fun r => zs.map fun w => (r.1, w)).countP fun p => p = (t, z)) = 1 := by
  intro L
  induction L with
  | nil => intro _ ht; simp at ht
  | cons r L ih =>
      intro hnd ht
      simp only [List.flatMap_cons, List.countP_append]
      by_cases hrt : r.1 = t
      · have hnot : t ∉ L.map Prod.fst := by
          have hp := (List.pairwise_cons.mp hnd).1
          intro hm
          exact (hp t hm) hrt
        rw [countP_pair_map, if_pos hrt, countP_eq_one_of_nodup_mem zs z hznd hz,
          countP_stack_pairs_zero t z zs L hnot]
      · have htl : t ∈ L.map Prod.fst := by
          rcases List.mem_cons.mp ht with he | hm
          · exact absurd he.symm hrt
          · exact hm
        rw [countP_pair_map, if_neg hrt, ih (List.Pairwise.of_cons hnd) htl]

/-- C2: on a valid frame (rectangular, no missing cells, distinct
timestamps, distinct zones) the long form has exactly rows × zones
records, and each (timestamp, zone) pair of the frame appears exactly
once, with timestamp and zone identity preserved exactly. -/
theorem c2_toLongForm_complete (rs : RawSeries) (hv : rs.Valid) :
    (toLongForm rs).length = rs.rows.length * rs.zones.length ∧
    ((toLongForm rs).map fun r => (r.date, r.zone))
      = (rs.rows.flatMap fun r => rs.zones.map fun z => (r.1, z)) ∧
    ∀ t ∈ rs.rows.map Prod.fst, ∀ z ∈ rs.zones,
      (((toLongForm rs).map fun r => (r.date, r.zone)).countP fun p => p = (t, z)) = 1 := by
  obtain ⟨hrect, hsome, hdates, hzones⟩ := hv
  have hpairs : ((toLongForm rs).map fun r => (r.date, r.zone))
      = rs.rows.flatMap fun r => rs.zones.map fun z => (r.1, z) := by
    rw [toLongForm, List.map_flatMap]
    have hgen : ∀ (L : List (Timestamp × List (Option ℚ))),
        (∀ r ∈ L, r.2.length = rs.zones.length) →
        (∀ r ∈ L, ∀ c ∈ r.2, c.isSome) →
        (L.flatMap fun r =>
            ((rs.zones.zip r.2).filterMap fun zc =>
              zc.2.map fun p => (⟨r.1, zc.1, p⟩ : LongRecord)).map
              fun rec => (rec.date, rec.zone))
          = L.flatMap fun r => rs.zones.map fun z => (r.1, z) := by
      intro L
      induction L with
      | nil => intro _ _; rfl
      | cons r L ih =>
          intro h1 h2
          simp only [List.flatMap_cons]
          rw [row_stack_pairs r.1 rs.zones r.2 (h1 r (List.mem_cons_self r L))
              (h2 r (List.mem_cons_self r L)),
            ih (fun x hx => h1 x (List.mem_cons_of_mem r hx))
              (fun x hx => h2 x (List.mem_cons_of_mem r hx))]
    exact hgen rs.rows hrect hsome
  refine ⟨?_, hpairs, ?_⟩
  · have hlen := congrArg List.length hpairs
    rw [List.length_map] at hlen
    rw [hlen, List.length_flatMap]
    have hmap : (rs.rows.map (List.length ∘ fun r => rs.zones.map fun z => (r.1, z)))
        = rs.rows.map fun _ => rs.zones.length := by
      apply List.map_congr_left
      intro r _
      simp
    rw [hmap]
    have := List.map_const rs.rows rs.zones.length
    rw [show (fun _ : Timestamp × List (Option ℚ) => rs.zones.length)
        = Function.const _ rs.zones.length from rfl, this, List.sum_replicate,
      smul_eq_mul]
  · intro t ht z hz
    rw [hpairs]
    exact countP_stack_pairs_one t z rs.zones hz hzones rs.rows hdates ht

/-- C2 witness: the clean 2×2 frame is valid, yields 4 records, and the
pair (first timestamp, "A") appears exactly once. -/
theorem c2_toLongForm_complete_witness :
    (toLongForm rsClean).length = 4 ∧
    (((toLongForm rsClean).map fun r => (r.date, r.zone)).countP
      fun p => p = (⟨2021, 1, 1, 0⟩, "A")) = 1 := by
  have hv : rsClean.Valid := by
    unfold RawSeries.Valid RawSeries.Rectangular
    refine ⟨?_, ?_, ?_, ?_⟩ <;> decide
  have h := c2_toLongForm_complete rsClean hv
  exact ⟨h.1, h.2.2 ⟨2021, 1, 1, 0⟩ (by decide) "A" (by decide)⟩

theorem row_stack_length (t : Timestamp) (zs : List String) :
    ∀ (cs : List (Option ℚ)), cs.length = zs.length →
    ((zs.zip cs).filterMap fun zc => zc.2.map fun p => (⟨t, zc.1, p⟩ : LongRecord)).length
      = cs.countP fun c => c.isSome := by
  induction zs with
  | nil =>
      intro cs hlen
      cases cs with
      | nil => rfl
      | cons c cs => simp at hlen
  | cons z zs ih =>
      intro cs hlen
      cases cs with
      | nil => simp at hlen
      | cons c cs =>
          simp only [List.zip_cons_cons, List.filterMap_cons, List.countP_cons]
          cases c with
          | none => simp [ih cs (by simpa using hlen)]
          | some p => simp [ih cs (by simpa using hlen)]

theorem countP_isSome_split (cs : List (Option ℚ)) :
    (cs.countP fun c => c.isSome) + (cs.countP fun c => !c.isSome) = cs.length := by
  induction cs with
  | nil => rfl
  | cons c cs ih =>
      cases c with
      | none =>
          simp only [List.countP_cons, List.length_cons]
          simp at ih ⊢
          omega
      | some p =>
          simp only [List.countP_cons, List.length_cons]
          simp at ih ⊢
          omega

theorem sum_map_add_nat {α : Type} (f g : α → ℕ) (L : List α) :
    (L.map f).sum + (L.map g).sum = (L.map fun x => f x + g x).sum := by
  induction L with
  | nil => rfl
  | cons a L ih =>
      simp only [List.map_cons, List.sum_cons]
      omega

theorem emit_zone_mem (t : Timestamp) (zs : List String) (cs : List (Option ℚ))
    (r : LongRecord)
    (hr : r ∈ (zs.zip cs).filterMap fun zc => zc.2.map fun p => (⟨t, zc.1, p⟩ : LongRecord)) :
    r.zone ∈ zs := by
  obtain ⟨zc, hzc, hemit⟩ := List.mem_filterMap.mp hr
  cases hcv : zc.2 with
  | none => rw [hcv] at hemit; simp at hemit
  | some p =>
      rw [hcv] at hemit
      simp only [Option.map_some', Option.some_inj] at hemit
      rw [← hemit]
      exact (List.of_mem_zip (show (zc.1, zc.2) ∈ zs.zip cs by simpa using hzc)).1

theorem row_pricesOf (t : Timestamp) (z : String) :
    ∀ (zs : List String) (cs : List (Option ℚ)), zs.Nodup →
    ((((zs.zip cs).filterMap fun zc => zc.2.map fun p => (⟨t, zc.1, p⟩ : LongRecord)).filter
        fun r => r.zone = z).map fun r => r.price)
      = ((zs.zip cs).lookup z).join.toList := by
  intro zs
  induction zs with
  | nil => intro cs _; rfl
  | cons w zs ih =>
      intro cs hnd
      cases cs with
      | nil => rfl
      | cons c cs =>
          obtain ⟨hw, hzs⟩ := List.nodup_cons.mp hnd
          have hnil : ∀ cs2 : List (Option ℚ), w ∈ zs → True := fun _ _ => trivial
          simp only [List.zip_cons_cons, List.filterMap_cons]
          cases c with
          | none =>
              simp only [Option.map_none']
              by_cases hzw : z = w
              · subst hzw
                have hrest : (((zs.zip cs).filterMap fun zc =>
                    zc.2.map fun p => (⟨t, zc.1, p⟩ : LongRecord)).filter
                      fun r => r.zone = z) = [] := by
                  rw [List.filter_eq_nil_iff]
                  intro r hr
                  have hmem := emit_zone_mem t zs cs r hr
                  simp only [decide_eq_true_eq]
                  intro he
                  rw [he] at hmem
                  exact hw hmem
                simp [List.lookup, hrest]
              · have hbeq : (z == w) = false := by
                  simp [hzw]
                simp only [List.lookup, hbeq]
                exact ih cs hzs
          | some p =>
              simp only [Option.map_some']
              by_cases hzw : z = w
              · subst hzw
                have hrest : (((zs.zip cs).filterMap fun zc =>
                    zc.2.map fun p => (⟨t, zc.1, p⟩ : LongRecord)).filter
                      fun r => r.zone = z) = [] := by
                  rw [List.filter_eq_nil_iff]
                  intro r hr
                  have hmem := emit_zone_mem t zs cs r hr
                  simp only [decide_eq_true_eq]
                  intro he
                  rw [he] at hmem
                  exact hw hmem
                simp [List.lookup, List.filter_cons, hrest]
              · have hbeq : (z == w) = false := by
                  simp [hzw]
                have hnz : ¬((⟨t, w, p⟩ : LongRecord).zone = z) := fun he => hzw he.symm
                simp only [List.lookup, hbeq, List.filter_cons]
                rw [if_neg (by simpa using hnz)]
                exact ih cs hzs

/-- C10: `stack` silently drops every missing cell — the long form has
one record per present cell (so strictly fewer than rows × zones when a
cell is missing), and each zone's long-form price history is exactly
the present values of that zone's column, with no error (every
operation is total). -/
theorem c10_stack_drops_missing (rs : RawSeries) (hrect : rs.Rectangular) :
    (toLongForm rs).length = presentCount rs ∧
    presentCount rs + missingCount rs = rs.rows.length * rs.zones.length ∧
    (0 < missingCount rs →
      (toLongForm rs).length < rs.rows.length * rs.zones.length) ∧
    (rs.zones.Nodup → ∀ z : String,
      pricesOf z (toLongForm rs) = (columnOf rs z).filterMap id) := by
  have hlen : (toLongForm rs).length = presentCount rs := by
    rw [toLongForm, List.length_flatMap, presentCount]
    congr 1
    apply List.map_congr_left
    intro r hr
    exact row_stack_length r.1 rs.zones r.2 (hrect r hr)
  have hsplit : presentCount rs + missingCount rs
      = rs.rows.length * rs.zones.length := by
    rw [presentCount, missingCount, sum_map_add_nat]
    have hmap : (rs.rows.map fun x =>
        (x.2.countP fun c => c.isSome) + (x.2.countP fun c => !c.isSome))
        = rs.rows.map fun _ => rs.zones.length := by
      apply List.map_congr_left
      intro r hr
      rw [countP_isSome_split, hrect r hr]
    rw [hmap, show (fun _ : Timestamp × List (Option ℚ) => rs.zones.length)
        = Function.const _ rs.zones.length from rfl, List.map_const,
      List.sum_replicate, smul_eq_mul]
  refine ⟨hlen, hsplit, fun hmiss => by omega, ?_⟩
  intro hzn z
  rw [pricesOf, toLongForm, columnOf]
  have hgen : ∀ L : List (Timestamp × List (Option ℚ)),
      (((L.flatMap fun r => (rs.zones.zip r.2).filterMap fun zc =>
          zc.2.map fun p => (⟨r.1, zc.1, p⟩ : LongRecord)).filter
            fun r => r.zone = z).map fun r => r.price)
        = (L.map fun r => ((rs.zones.zip r.2).lookup z).join).filterMap id := by
    intro L
    induction L with
    | nil => rfl
    | cons r L ih =>
        simp only [List.flatMap_cons, List.filter_append, List.map_append,
          List.map_cons, List.filterMap_cons]
        rw [row_pricesOf r.1 z rs.zones r.2 hzn, ih]
        cases hj : ((rs.zones.zip r.2).lookup z).join <;> simp [hj]
  exact hgen rs.rows

/-- C10 witness: on the 2×2 frame with one missing cell the long form
has 3 < 4 records and zone B's history is just its present value. -/
theorem c10_stack_drops_missing_witness :
    (toLongForm rsSmall).length = 3 ∧ missingCount rsSmall = 1 ∧
    (toLongForm rsSmall).length < rsSmall.rows.length * rsSmall.zones.length ∧
    pricesOf "B" (toLongForm rsSmall) = [3] := by
  have hrect : rsSmall.Rectangular := by
    unfold RawSeries.Rectangular
    decide
  have h := c10_stack_drops_missing rsSmall hrect
  refine ⟨h.1.trans (by decide), by decide, h.2.2.1 (by decide), ?_⟩
  rw [h.2.2.2 (by decide) "B"]
  rfl

/-! ### Claim C4: rolling statistics -/

theorem filterMap_id_allSome (xs : List (Option ℚ)) (h : ∀ o ∈ xs, o.isSome) :
    (xs.filterMap id).length = xs.length := by
  induction xs with
  | nil => rfl
  | cons o xs ih =>
      obtain ⟨v, hv⟩ := Option.isSome_iff_exists.mp (h o (List.mem_cons_self o xs))
      subst hv
      simp only [List.filterMap_cons, id_eq, List.length_cons]
      rw [ih fun x hx => h x (List.mem_cons_of_mem _ hx)]

theorem acrossZoneMean_allSome (rs : RawSeries)
    (h : ∀ r ∈ rs.rows, ∃ c ∈ r.2, c.isSome) :
    ∀ o ∈ acrossZoneMean rs, o.isSome := by
  intro o ho
  obtain ⟨r, hr, heq⟩ := List.mem_map.mp ho
  obtain ⟨c, hc, hcs⟩ := h r hr
  have hp : r.2.filterMap id ≠ [] := by
    obtain ⟨v, hv⟩ := Option.isSome_iff_exists.mp hcs
    intro hnil
    have hv2 : v ∈ r.2.filterMap id :=
      List.mem_filterMap.mpr ⟨c, hc, by rw [hv]; rfl⟩
    rw [hnil] at hv2
    simp at hv2
  rw [← heq]
  simp [hp]

theorem windowAt_length (xs : List (Option ℚ)) (w i : Nat) (hi : i < xs.length) :
    (windowAt xs w i).length = min (i + 1) w := by
  rw [windowAt, List.length_drop, List.length_take]
  omega

theorem windowAt_allSome (xs : List (Option ℚ)) (h : ∀ o ∈ xs, o.isSome)
    (w i : Nat) : ∀ o ∈ windowAt xs w i, o.isSome := fun o ho =>
  h o (List.mem_of_mem_take (List.mem_of_mem_drop ho))

theorem rollingApply_get (f : List ℚ → Option ℚ) (w minp : Nat)
    (xs : List (Option ℚ)) (i : Nat) (hi : i < xs.length) :
    (rollingApply f w minp xs).get? i = some
      (if minp ≤ ((windowAt xs w i).filterMap id).length
        then f ((windowAt xs w i).filterMap id) else none) := by
  rw [rollingApply, List.get?_map, List.get?_range hi]
  rfl

/-- C4, amended: on a frame where every row has at least one present
cell, the 30-day rolling mean and rolling volatility (min_periods = 24)
produce no value at positions 0..22 and a defined value at every
position from 23 = minPeriods − 1 onward.  (For frames with an
all-missing row the "defined from 23 on" half fails; see the
counterexample.) -/
theorem c4_rolling_minPeriods (rs : RawSeries)
    (hrow : ∀ r ∈ rs.rows, ∃ c ∈ r.2, c.isSome) :
    ∀ i < rs.rows.length,
      (i < 23 →
        (rollMean30d rs).get? i = some none ∧ (rollVar30d rs).get? i = some none) ∧
      (23 ≤ i →
        (∃ v, (rollMean30d rs).get? i = some (some v)) ∧
        ∃ v, (rollVar30d rs).get? i = some (some v)) := by
  intro i hi
  have hlen : (acrossZoneMean rs).length = rs.rows.length := by
    simp [acrossZoneMean]
  have hi2 : i < (acrossZoneMean rs).length := by omega
  have hall := acrossZoneMean_allSome rs hrow
  have hwlen : ((windowAt (acrossZoneMean rs) (24 * 30) i).filterMap id).length
      = min (i + 1) (24 * 30) := by
    rw [filterMap_id_allSome _ (windowAt_allSome _ hall _ _),
      windowAt_length _ _ _ hi2]
  constructor
  · intro h23
    have hlt : ¬(24 ≤ ((windowAt (acrossZoneMean rs) (24 * 30) i).filterMap id).length) := by
      rw [hwlen]
      omega
    constructor
    · rw [rollMean30d, rollingApply_get _ _ _ _ _ hi2, if_neg hlt]
    · rw [rollVar30d, rollingApply_get _ _ _ _ _ hi2, if_neg hlt]
  · intro h23
    have hge : 24 ≤ ((windowAt (acrossZoneMean rs) (24 * 30) i).filterMap id).length := by
      rw [hwlen]
      omega
    constructor
    · exact ⟨meanQ ((windowAt (acrossZoneMean rs) (24 * 30) i).filterMap id),
        by rw [rollMean30d, rollingApply_get _ _ _ _ _ hi2, if_pos hge]⟩
    · have hvar : ¬(((windowAt (acrossZoneMean rs) (24 * 30) i).filterMap id).length ≤ 1) := by
        omega
      refine ⟨varNum ((windowAt (acrossZoneMean rs) (24 * 30) i).filterMap id) /
        ((((windowAt (acrossZoneMean rs) (24 * 30) i).filterMap id).length : ℚ) - 1), ?_⟩
      rw [rollVar30d, rollingApply_get _ _ _ _ _ hi2, if_pos hge, sampleVar, if_neg hvar]

/-- C4, counterexample to the claim as stated: with 24 rows and the
first row's only cell missing, position 23 = minPeriods − 1 exists but
produces no value (only 23 observations fall in its window), so the
"every position from minPeriods − 1 onward produces a defined value"
half fails on frames with missing data. -/
theorem c4_counterexample :
    rsGap.rows.length = 24 ∧
    (rsGap.rows.map fun r => r.2) = [none] :: List.replicate 23 [some 1] ∧
    (rollMean30d rsGap).get? 23 = some none ∧
    (rollVar30d rsGap).get? 23 = some none := by
  refine ⟨by decide, by decide, ?_, ?_⟩ <;> rfl

/-- C4 witness: on the clean 24-row frame the theorem yields no value at
position 0 and a defined rolling mean and volatility at position 23. -/
theorem c4_rolling_minPeriods_witness :
    (rollMean30d rsFull).get? 0 = some none ∧
    (∃ v, (rollMean30d rsFull).get? 23 = some (some v)) ∧
    (∃ v, (rollVar30d rsFull).get? 23 = some (some v)) := by
  have hrow : ∀ r ∈ rsFull.rows, ∃ c ∈ r.2, c.isSome := by decide
  have h := c4_rolling_minPeriods rsFull hrow
  exact ⟨((h 0 (by decide)).1 (by decide)).1, ((h 23 (by decide)).2 (by decide)).1,
    ((h 23 (by decide)).2 (by decide)).2⟩

/-! ### Claim C5: inter-zonal spread -/

/-- C5: for each row, the spread row is built over only the present
cells — its max and min are attained present values bounding every
present value; a row with exactly one present value gets
max = min = that value and spread 0 (not an error); a row with no
present value gets no value. -/
theorem c5_spread_skips_missing (rs : RawSeries) (r : Timestamp × List (Option ℚ))
    (hr : r ∈ rs.rows) :
    spreadRowOf r ∈ interZonalSpread rs ∧
    (spreadRowOf r).date = r.1 ∧
    (r.2.filterMap id ≠ [] →
      ∃ a b, (spreadRowOf r).mx = some a ∧ (spreadRowOf r).mn = some b ∧
        a ∈ r.2.filterMap id ∧ b ∈ r.2.filterMap id ∧
        (∀ v ∈ r.2.filterMap id, b ≤ v ∧ v ≤ a) ∧
        (spreadRowOf r).spread = some (a - b)) ∧
    (∀ v : ℚ, r.2.filterMap id = [v] →
      (spreadRowOf r).mx = some v ∧ (spreadRowOf r).mn = some v ∧
        (spreadRowOf r).spread = some 0) ∧
    (r.2.filterMap id = [] → (spreadRowOf r).spread = none) := by
  refine ⟨List.mem_map_of_mem spreadRowOf hr, rfl, ?_, ?_, ?_⟩
  · intro hne
    cases hmax : (r.2.filterMap id).max? with
    | none => exact absurd (List.max?_eq_none_iff.mp hmax) hne
    | some a =>
        cases hmin : (r.2.filterMap id).min? with
        | none => exact absurd (List.min?_eq_none_iff.mp hmin) hne
        | some b =>
            refine ⟨a, b, ?_, ?_, ?_, ?_, ?_, ?_⟩
            · show (r.2.filterMap id).max? = some a
              exact hmax
            · show (r.2.filterMap id).min? = some b
              exact hmin
            · exact List.max?_mem max_choice hmax
            · exact List.min?_mem min_choice hmin
            · intro v hv
              constructor
              · exact ((List.le_min?_iff (fun _ _ _ => le_inf_iff) hmin).mp
                  (le_refl b)) v hv
              · exact ((List.max?_le_iff (fun _ _ _ => sup_le_iff) hmax).mp
                  (le_refl a)) v hv
            · show (match (r.2.filterMap id).max?, (r.2.filterMap id).min? with
                | some a, some b => some (a - b)
                | _, _ => none) = some (a - b)
              rw [hmax, hmin]
  · intro v hv
    have hmax : (r.2.filterMap id).max? = some v := by rw [hv]; rfl
    have hmin : (r.2.filterMap id).min? = some v := by rw [hv]; rfl
    refine ⟨hmax, hmin, ?_⟩
    show (match (r.2.filterMap id).max?, (r.2.filterMap id).min? with
      | some a, some b => some (a - b)
      | _, _ => none) = some 0
    rw [hmax, hmin]
    show some (v - v) = some 0
    rw [sub_self]
  · intro hnil
    show (match (r.2.filterMap id).max?, (r.2.filterMap id).min? with
      | some a, some b => some (a - b)
      | _, _ => none) = none
    rw [hnil]
    rfl

/-- C5 witness: on the row of `rsSmall` where only zone A has a value,
the spread row has max = min = 4 and spread 0. -/
theorem c5_spread_skips_missing_witness :
    (spreadRowOf (⟨2021, 1, 1, 0⟩, [some 4, none])).mx = some 4 ∧
    (spreadRowOf (⟨2021, 1, 1, 0⟩, [some 4, none])).spread = some 0 := by
  have h := c5_spread_skips_missing rsSmall (⟨2021, 1, 1, 0⟩, [some 4, none])
    (by decide)
  have h4 := h.2.2.2.1 4 (by decide)
  exact ⟨h4.1, h4.2.2⟩

/-! ### Claim C6: correlation matrix -/

theorem pairData_swap (rs : RawSeries) (i j : Nat) :
    pairData rs j i = (pairData rs i j).map Prod.swap := by
  rw [pairData, pairData, List.map_filterMap]
  apply List.filterMap_congr
  intro r _
  cases r.2.getD i none <;> cases r.2.getD j none <;> rfl

theorem corrEntry_swap (ps : List (ℚ × ℚ)) :
    corrEntry (ps.map Prod.swap) = corrEntry ps := by
  unfold corrEntry
  have h1 : (ps.map Prod.swap).map Prod.fst = ps.map Prod.snd := by
    rw [List.map_map]
    rfl
  have h2 : (ps.map Prod.swap).map Prod.snd = ps.map Prod.fst := by
    rw [List.map_map]
    rfl
  rw [h1, h2]
  have hcov : ((ps.map Prod.swap).map fun p =>
      (p.1 - meanQ (ps.map Prod.snd)) * (p.2 - meanQ (ps.map Prod.fst))).sum
      = (ps.map fun p =>
      (p.1 - meanQ (ps.map Prod.fst)) * (p.2 - meanQ (ps.map Prod.snd))).sum := by
    rw [List.map_map]
    apply congrArg
    apply List.map_congr_left
    intro p _
    show (p.2 - meanQ (ps.map Prod.snd)) * (p.1 - meanQ (ps.map Prod.fst)) = _
    rw [mul_comm]
  rw [hcov, mul_comm (varNum (ps.map Prod.snd)) (varNum (ps.map Prod.fst))]

theorem pairData_diag (rs : RawSeries) (i : Nat) :
    pairData rs i i = (columnVals rs i).map fun v => (v, v) := by
  rw [pairData, columnVals, List.map_filterMap]
  apply List.filterMap_congr
  intro r _
  cases r.2.getD i none <;> rfl

/-- C6: the correlation matrix is symmetric; each entry is the
pairwise-complete Pearson entry of its two columns; the diagonal entry
of a zone of nonzero variance represents exactly 1.0 (its value is
cov/√denom with cov > 0 and cov² = denom) and is undefined — not a
number — for a zone of zero variance. -/
theorem c6_corr_symmetric_diagonal (rs : RawSeries) (i j : Nat) :
    corrMatrix rs i j = corrMatrix rs j i ∧
    corrMatrix rs i j = corrEntry (pairData rs i j) ∧
    (varNum (columnVals rs i) ≠ 0 →
      ∃ c, corrMatrix rs i i = some c ∧ 0 < c.cov ∧ c.cov ^ 2 = c.denom) ∧
    (varNum (columnVals rs i) = 0 → corrMatrix rs i i = none) := by
  have hdiag : pairData rs i i = (columnVals rs i).map fun v => (v, v) :=
    pairData_diag rs i
  have hfst : ((columnVals rs i).map fun v => (v, v)).map Prod.fst
      = columnVals rs i := by
    rw [List.map_map]
    exact List.map_id _
  have hsnd : ((columnVals rs i).map fun v => (v, v)).map Prod.snd
      = columnVals rs i := by
    rw [List.map_map]
    exact List.map_id _
  have hcovdiag : (((columnVals rs i).map fun v => (v, v)).map fun p =>
      (p.1 - meanQ (columnVals rs i)) * (p.2 - meanQ (columnVals rs i))).sum
      = varNum (columnVals rs i) := by
    rw [List.map_map, varNum]
    apply congrArg
    apply List.map_congr_left
    intro v _
    show (v - meanQ (columnVals rs i)) * (v - meanQ (columnVals rs i)) = _
    rw [sq]
  refine ⟨?_, rfl, ?_, ?_⟩
  · rw [corrMatrix, corrMatrix, pairData_swap rs j i, corrEntry_swap]
  · intro hvar
    rw [corrMatrix, hdiag]
    unfold corrEntry
    rw [hfst, hsnd, hcovdiag]
    have hcond : ¬(varNum (columnVals rs i) * varNum (columnVals rs i) = 0) := by
      rw [mul_self_eq_zero]
      exact hvar
    rw [if_neg hcond]
    have hnonneg : 0 ≤ varNum (columnVals rs i) := by
      rw [varNum]
      apply List.sum_nonneg
      intro x hx
      obtain ⟨v, _, hveq⟩ := List.mem_map.mp hx
      rw [← hveq]
      exact sq_nonneg _
    exact ⟨⟨varNum (columnVals rs i),
      varNum (columnVals rs i) * varNum (columnVals rs i)⟩, rfl,
      lt_of_le_of_ne hnonneg (Ne.symm hvar), pow_two _⟩
  · intro hvar
    rw [corrMatrix, hdiag]
    unfold corrEntry
    rw [hfst, hsnd]
    rw [if_pos (by rw [mul_self_eq_zero]; exact hvar)]

/-- C6 witness: on the clean 2×2 frame, corr(A,B) = corr(B,A) and the
diagonal entry of zone A (nonzero variance) represents 1.0. -/
theorem c6_corr_symmetric_diagonal_witness :
    corrMatrix rsClean 0 1 = corrMatrix rsClean 1 0 ∧
    ∃ c, corrMatrix rsClean 0 0 = some c ∧ 0 < c.cov ∧ c.cov ^ 2 = c.denom := by
  have h := c6_corr_symmetric_diagonal rsClean 0 1
  refine ⟨h.1, h.2.2.1 ?_⟩
  rw [show columnVals rsClean 0 = [4, 2] from rfl]
  norm_num [varNum, meanQ]

/-! ### Claim C7: seasonal averages -/

/-- C7: every record with a calendar month lands in exactly one season
of the fixed mapping; the output holds the four seasons in fixed order;
a season with no records is reported with all statistics missing (never
a fabricated zero), and a season with records gets its group's real
mean and sample variance. -/
theorem c7_seasonal_average (l : List LongRecord)
    (hm : ∀ r ∈ l, 1 ≤ r.date.month ∧ r.date.month ≤ 12) :
    ((seasonalAverage l).map fun s => s.season) = seasonNames ∧
    (∀ r ∈ l, ∃! s, s ∈ seasonNames ∧ season_of_month r.date.month = some s) ∧
    (∀ srow ∈ seasonalAverage l, seasonGroup l srow.season = [] →
      srow.mean = none ∧ srow.median = none ∧ srow.stdevSq = none ∧
        srow.mn = none ∧ srow.mx = none) ∧
    (∀ srow ∈ seasonalAverage l, seasonGroup l srow.season ≠ [] →
      srow.mean = some (meanQ (seasonGroup l srow.season)) ∧
        srow.stdevSq = sampleVar (seasonGroup l srow.season)) := by
  refine ⟨?_, ?_, ?_, ?_⟩
  · rw [seasonalAverage, List.map_map]
    exact List.map_id seasonNames
  · intro r hr
    obtain ⟨hm1, hm2⟩ := hm r hr
    have hex : ∃ s, s ∈ seasonNames ∧ season_of_month r.date.month = some s := by
      set m := r.date.month with hmdef
      interval_cases m <;>
        first
        | exact ⟨"Winter", by decide, rfl⟩
        | exact ⟨"Spring", by decide, rfl⟩
        | exact ⟨"Summer", by decide, rfl⟩
        | exact ⟨"Autumn", by decide, rfl⟩
    obtain ⟨s, hs1, hs2⟩ := hex
    refine ⟨s, ⟨hs1, hs2⟩, ?_⟩
    intro y hy
    exact Option.some_inj.mp (hy.2.symm.trans hs2)
  · intro srow hsrow hempty
    obtain ⟨s, _, heq⟩ := List.mem_map.mp hsrow
    subst heq
    have hempty2 : seasonGroup l s = [] := hempty
    refine ⟨?_, ?_, ?_, ?_, ?_⟩
    · show (if seasonGroup l s = [] then none else some (meanQ (seasonGroup l s))) = none
      rw [if_pos hempty2]
    · show medianQ (seasonGroup l s) = none
      rw [medianQ, quantileQ, if_pos hempty2]
    · show sampleVar (seasonGroup l s) = none
      rw [sampleVar, hempty2]
      rfl
    · show (seasonGroup l s).min? = none
      rw [hempty2]
      rfl
    · show (seasonGroup l s).max? = none
      rw [hempty2]
      rfl
  · intro srow hsrow hne
    obtain ⟨s, _, heq⟩ := List.mem_map.mp hsrow
    subst heq
    have hne2 : seasonGroup l s ≠ [] := hne
    constructor
    · show (if seasonGroup l s = [] then none else some (meanQ (seasonGroup l s)))
        = some (meanQ (seasonGroup l s))
      rw [if_neg hne2]
    · rfl

/-- C7 witness: on the clean frame (all records in January) the seasons
appear in fixed order and the first record lands in exactly one
season. -/
theorem c7_seasonal_average_witness :
    ((seasonalAverage (toLongForm rsClean)).map fun s => s.season) = seasonNames ∧
    ∃! s, s ∈ seasonNames ∧
      season_of_month (⟨⟨2021, 1, 1, 0⟩, "A", 4⟩ : LongRecord).date.month = some s := by
  have h := c7_seasonal_average (toLongForm rsClean) (by decide)
  exact ⟨h.1, h.2.1 ⟨⟨2021, 1, 1, 0⟩, "A", 4⟩ (by decide)⟩

/-! ### Claim C8: the loader -/

/-- C8: `load_data` fails if and only if the `Date` column is absent;
an absent column aborts the whole run before any aggregation (the
pipeline returns the schema error); with the column present the loader
succeeds, keeps the zone columns in order, and produces the input rows
permuted into ascending timestamp order. -/
theorem c8_load_data (t : InputTable) :
    ((∃ e, load_data t = Except.error e) ↔ t.dateColumn = none) ∧
    (t.dateColumn = none →
      runPipeline t = Except.error "Input sheet must contain a 'Date' column.") ∧
    (∀ dates, t.dateColumn = some dates →
      ∃ rs, load_data t = Except.ok rs ∧ rs.zones = t.zoneNames ∧
        rs.rows.Perm (dates.zip t.zoneRows) ∧ rs.rows.Pairwise rowLe) := by
  refine ⟨⟨?_, ?_⟩, ?_, ?_⟩
  · rintro ⟨e, he⟩
    cases hdc : t.dateColumn with
    | none => rfl
    | some dates =>
        rw [load_data, hdc] at he
        simp at he
  · intro hdc
    exact ⟨"Input sheet must contain a 'Date' column.", by rw [load_data, hdc]⟩
  · intro hdc
    rw [runPipeline, load_data, hdc]
    rfl
  · intro dates hdc
    refine ⟨⟨t.zoneNames, List.insertionSort rowLe (dates.zip t.zoneRows)⟩, ?_, rfl, ?_, ?_⟩
    · rw [load_data, hdc]
    · exact List.perm_insertionSort rowLe _
    · exact List.sorted_insertionSort rowLe _

/-- C8 witness: a sheet without a `Date` column aborts the run with the
schema error; a sheet with one loads into timestamp-sorted rows. -/
theorem c8_load_data_witness :
    runPipeline tNoDate = Except.error "Input sheet must contain a 'Date' column." ∧
    ∃ rs, load_data tWithDate = Except.ok rs ∧ rs.rows.Pairwise rowLe := by
  have h1 := (c8_load_data tNoDate).2.1 rfl
  obtain ⟨rs, hok, _, _, hsort⟩ :=
    (c8_load_data tWithDate).2.2 [⟨2021, 1, 1, 5⟩, ⟨2021, 1, 1, 3⟩] rfl
  exact ⟨h1, rs, hok, hsort⟩

/-! ### Claim C9: standard-deviation and quantile conventions -/

/-- C9: every standard deviation of the pipeline is the shared sample
(N−1) statistic — the zone table, seasonal table, rolling volatility
and overall KPI all carry `sampleVar` of their own group, which is
missing (not zero, not an error) on empty and single-element groups and
satisfies v·(n−1) = Σ(x−x̄)² otherwise — and every quantile (the zone
and overall 95th percentiles included) is the linear-interpolation
`quantileQ`. -/
theorem c9_sample_std_and_quantile :
    (∀ g : List ℚ, g.length ≤ 1 → sampleVar g = none) ∧
    (∀ g : List ℚ, 2 ≤ g.length → ∃ v, sampleVar g = some v ∧
      v * ((g.length : ℚ) - 1) = varNum g) ∧
    (∀ l : List LongRecord, ∀ r ∈ zoneSummary l,
      r.stdevSq = sampleVar (pricesOf r.zone l) ∧
        r.p95 = quantileQ (pricesOf r.zone l) (95 / 100)) ∧
    (∀ l : List LongRecord, ∀ srow ∈ seasonalAverage l,
      srow.stdevSq = sampleVar (seasonGroup l srow.season)) ∧
    (∀ l : List LongRecord,
      (overallStats l).stdevSq = sampleVar (l.map fun r => r.price) ∧
        (overallStats l).p95 = quantileQ (l.map fun r => r.price) (95 / 100)) ∧
    (∀ rs : RawSeries,
      rollVar30d rs = rollingApply sampleVar (24 * 30) 24 (acrossZoneMean rs)) ∧
    (∀ g : List ℚ, ∀ q : ℚ, g ≠ [] →
      quantileQ g q = some
        ((List.insertionSort (· ≤ ·) g).getD ((q * ((g.length : ℚ) - 1)).floor.toNat) 0 +
          (q * ((g.length : ℚ) - 1) - (((q * ((g.length : ℚ) - 1)).floor.toNat : ℕ) : ℚ)) *
          ((List.insertionSort (· ≤ ·) g).getD
              (min ((q * ((g.length : ℚ) - 1)).floor.toNat + 1) (g.length - 1)) 0 -
            (List.insertionSort (· ≤ ·) g).getD
              ((q * ((g.length : ℚ) - 1)).floor.toNat) 0))) := by
  refine ⟨?_, ?_, ?_, ?_, ?_, ?_, ?_⟩
  · intro g hg
    rw [sampleVar, if_pos hg]
  · intro g hg
    have hne : ((g.length : ℚ) - 1) ≠ 0 := by
      have : (2 : ℚ) ≤ (g.length : ℚ) := by exact_mod_cast hg
      intro h0
      have : (g.length : ℚ) = 1 := by linarith
      linarith
    refine ⟨varNum g / ((g.length : ℚ) - 1), ?_, div_mul_cancel₀ _ hne⟩
    rw [sampleVar, if_neg (by omega)]
  · intro l r hr
    have hzs : zoneSummary l =
        ((List.insertionSort (keyGe ZoneRow.mean)
            ((sortedKeys l).map fun z => mkZoneRow z (pricesOf z l))).zip
          (rankFirstDesc ((List.insertionSort (keyGe ZoneRow.mean)
            ((sortedKeys l).map fun z => mkZoneRow z (pricesOf z l))).map
              fun w => w.mean))).map fun rk => { rk.1 with rank := rk.2 } := rfl
    rw [hzs] at hr
    obtain ⟨p, hp, hpr⟩ := List.mem_map.mp hr
    have hp1 : p.1 ∈ List.insertionSort (keyGe ZoneRow.mean)
        ((sortedKeys l).map fun z => mkZoneRow z (pricesOf z l)) :=
      (List.of_mem_zip (show (p.1, p.2) ∈ _ by simpa using hp)).1
    have hp2 : p.1 ∈ (sortedKeys l).map fun z => mkZoneRow z (pricesOf z l) :=
      (List.perm_insertionSort _ _).mem_iff.mp hp1
    obtain ⟨z, _, hzeq⟩ := List.mem_map.mp hp2
    subst hpr
    constructor
    · show p.1.stdevSq = sampleVar (pricesOf p.1.zone l)
      rw [← hzeq]
      rfl
    · show p.1.p95 = quantileQ (pricesOf p.1.zone l) (95 / 100)
      rw [← hzeq]
      rfl
  · intro l srow hsrow
    obtain ⟨s, _, heq⟩ := List.mem_map.mp hsrow
    subst heq
    rfl
  · intro l
    exact ⟨rfl, rfl⟩
  · intro rs
    rfl
  · intro g q hg
    rw [quantileQ, if_neg hg]

/-- C9 witness: the edge cases and conventions at concrete groups — a
singleton group has no standard deviation, a two-element group has the
sample variance with denominator n − 1 = 1, and the median of [1, 3] is
reached by linear interpolation. -/
theorem c9_sample_std_and_quantile_witness :
    sampleVar [(5 : ℚ)] = none ∧
    (∃ v, sampleVar [(1 : ℚ), 3] = some v ∧
      v * ((([(1 : ℚ), 3].length : ℕ) : ℚ) - 1) = varNum [(1 : ℚ), 3]) ∧
    quantileQ [(1 : ℚ), 3] (1 / 2) = some
      ((List.insertionSort (· ≤ ·) [(1 : ℚ), 3]).getD
          (((1 : ℚ) / 2 * ((([(1 : ℚ), 3].length : ℕ) : ℚ) - 1)).floor.toNat) 0 +
        ((1 : ℚ) / 2 * ((([(1 : ℚ), 3].length : ℕ) : ℚ) - 1) -
          ((((1 : ℚ) / 2 * ((([(1 : ℚ), 3].length : ℕ) : ℚ) - 1)).floor.toNat : ℕ) : ℚ)) *
        ((List.insertionSort (· ≤ ·) [(1 : ℚ), 3]).getD
            (min (((1 : ℚ) / 2 * ((([(1 : ℚ), 3].length : ℕ) : ℚ) - 1)).floor.toNat + 1)
              ([(1 : ℚ), 3].length - 1)) 0 -
          (List.insertionSort (· ≤ ·) [(1 : ℚ), 3]).getD
            (((1 : ℚ) / 2 * ((([(1 : ℚ), 3].length : ℕ) : ℚ) - 1)).floor.toNat) 0)) := by
  have h := c9_sample_std_and_quantile
  exact ⟨h.1 [5] (by decide), h.2.1 [1, 3] (by decide),
    h.2.2.2.2.2.2 [1, 3] (1 / 2) (by decide)⟩

end PJM
